import Mathlib

/-!
# Verification of the TextCleaner cleaning core

Shallow embedding of `src/textcleaner/cleaner.py` over `List Char` (a Python
`str` is a sequence of Unicode code points, modelled as a list of `Char`).

External capabilities used by the source (`unicodedata`, `difflib`'s
`SequenceMatcher`, the `enchant` dictionary) are modelled explicitly:
* the dictionary is an abstract structure with `check` and `suggest`,
  exactly the capability interface the code consumes;
* `unicodedata.normalize("NFKC", ·)` and `unicodedata.category` are
  abstracted as a `UnicodeModel`, plus a concrete executable fragment model
  (`UFrag`) faithful to the real Unicode tables on the characters it covers;
* `SequenceMatcher` (with `autojunk=False` and no junk predicate) is modelled
  by its documented contract: `find_longest_match` returns the longest
  matching block, tie-broken by the earliest start in `a` then in `b`.
-/

namespace TextCleaner

/-- Python slice `s[i:j]` for non-negative `i`, `j` (clamping, empty when
`j ≤ i`), as used by `cleaner.py` on strings. -/
def slice (s : List Char) (i j : Nat) : List Char :=
  (s.drop i).take (j - i)

theorem slice_zero_len (s : List Char) (i : Nat) : slice s i i = [] := by
  simp [slice]

theorem slice_append (s : List Char) {i j k : Nat} (h1 : i ≤ j) (h2 : j ≤ k) :
    slice s i j ++ slice s j k = slice s i k := by
  unfold slice
  have hdrop : s.drop j = (s.drop i).drop (j - i) := by
    rw [List.drop_drop]
    congr 1
    omega
  rw [hdrop, ← List.take_add]
  congr 1
  omega

theorem drop_eq_slice_append (s : List Char) {i j : Nat} (h : i ≤ j) :
    s.drop i = slice s i j ++ s.drop j := by
  unfold slice
  have hdrop : s.drop j = (s.drop i).drop (j - i) := by
    rw [List.drop_drop]; congr 1; omega
  rw [hdrop]
  exact (List.take_append_drop _ _).symm

theorem slice_full (s : List Char) : slice s 0 s.length = s := by
  simp [slice]

/-! ## Edit distance

`_edit_distance` (cleaner.py lines 19–35): dynamic programming with a rolling
row over the second string.  We relate it to the classic textbook Levenshtein
recursion `lev` and prove the metric properties.
-/

/-- Cost of the substitution `prev[j-1] + (char_a != char_b)` in the source. -/
def edCost (x y : Char) : Nat := if x = y then 0 else 1

/-- Classic Levenshtein distance, unit-cost insertion / deletion /
substitution, textbook recursion peeling the heads. -/
def lev : List Char → List Char → Nat
  | [], ys => ys.length
  | x :: xs, [] => (x :: xs).length
  | x :: xs, y :: ys =>
      min (min (lev xs (y :: ys) + 1) (lev (x :: xs) ys + 1))
        (lev xs ys + edCost x y)
termination_by xs ys => xs.length + ys.length
decreasing_by all_goals simp_arith

theorem lev_nil_left (ys : List Char) : lev [] ys = ys.length := by
  cases ys <;> simp [lev]

theorem lev_nil_right (xs : List Char) : lev xs [] = xs.length := by
  cases xs <;> simp [lev]

theorem lev_cons_cons (x y : Char) (xs ys : List Char) :
    lev (x :: xs) (y :: ys) =
      min (min (lev xs (y :: ys) + 1) (lev (x :: xs) ys + 1))
        (lev xs ys + edCost x y) := by
  rw [lev]

theorem edCost_self (x : Char) : edCost x x = 0 := by simp [edCost]

theorem edCost_comm (x y : Char) : edCost x y = edCost y x := by
  simp only [edCost]
  by_cases h : x = y
  · simp [h]
  · rw [if_neg h, if_neg (fun h' => h h'.symm)]

theorem lev_self (xs : List Char) : lev xs xs = 0 := by
  induction xs with
  | nil => simp [lev_nil_left]
  | cons x xs ih =>
      rw [lev_cons_cons]
      have : lev xs xs + edCost x x = 0 := by rw [ih, edCost_self]
      omega

theorem lev_zero_iff (xs ys : List Char) : lev xs ys = 0 ↔ xs = ys := by
  induction xs generalizing ys with
  | nil =>
      rw [lev_nil_left]
      cases ys <;> simp
  | cons x xs ih =>
      cases ys with
      | nil => simp [lev_nil_right]
      | cons y ys =>
          rw [lev_cons_cons]
          constructor
          · intro h
            have h3 : lev xs ys + edCost x y = 0 := by omega
            have hc : edCost x y = 0 := by omega
            have hxy : x = y := by
              by_contra hne
              simp [edCost, hne] at hc
            have : xs = ys := (ih ys).mp (by omega)
            simp [hxy, this]
          · intro h
            obtain ⟨h1, h2⟩ := List.cons.injEq .. ▸ h
            subst h1; subst h2
            have := lev_self (x :: xs)
            rw [lev_cons_cons] at this
            omega

/-- Edit scripts: `ED u v n` holds when `u` can be rewritten to `v` with `n`
unit-cost single-character operations (keep is free). -/
inductive ED : List Char → List Char → Nat → Prop
  | nil : ED [] [] 0
  | keep {u v : List Char} {n : Nat} (x : Char) : ED u v n → ED (x :: u) (x :: v) n
  | sub {u v : List Char} {n : Nat} {x y : Char} (h : x ≠ y) :
      ED u v n → ED (x :: u) (y :: v) (n + 1)
  | del {u v : List Char} {n : Nat} (x : Char) : ED u v n → ED (x :: u) v (n + 1)
  | ins {u v : List Char} {n : Nat} (y : Char) : ED u v n → ED u (y :: v) (n + 1)

theorem ED_nil_left (v : List Char) : ED [] v v.length := by
  induction v with
  | nil => exact ED.nil
  | cons y v ih => exact ED.ins y ih

theorem ED_nil_right (u : List Char) : ED u [] u.length := by
  induction u with
  | nil => exact ED.nil
  | cons x u ih => exact ED.del x ih

theorem lev_le_of_ED {u v : List Char} {n : Nat} (h : ED u v n) : lev u v ≤ n := by
  induction h with
  | nil => simp [lev_nil_left]
  | keep x _ ih =>
      rw [lev_cons_cons]
      have : lev _ _ + edCost x x ≤ _ + 0 := Nat.add_le_add ih (le_of_eq (edCost_self x))
      omega
  | @sub u' v' n' x y hxy _ ih =>
      rw [lev_cons_cons]
      have hc : edCost x y ≤ 1 := by unfold edCost; split <;> omega
      have : lev u' v' + edCost x y ≤ n' + 1 := Nat.add_le_add ih hc
      omega
  | @del u v n x _ ih =>
      cases v with
      | nil =>
          rw [lev_nil_right] at ih ⊢
          simpa using Nat.add_le_add_right ih 1
      | cons y ys =>
          rw [lev_cons_cons]
          have : lev u (y :: ys) + 1 ≤ n + 1 := Nat.add_le_add_right ih 1
          omega
  | @ins u v n y _ ih =>
      cases u with
      | nil =>
          rw [lev_nil_left] at ih ⊢
          simpa using Nat.add_le_add_right ih 1
      | cons x xs =>
          rw [lev_cons_cons]
          have : lev (x :: xs) v + 1 ≤ n + 1 := Nat.add_le_add_right ih 1
          omega

theorem ED_of_lev : ∀ (N : Nat) (u v : List Char), u.length + v.length ≤ N →
    ED u v (lev u v) := by
  intro N
  induction N with
  | zero =>
      intro u v h
      have hu : u = [] := List.length_eq_zero.mp (by omega)
      have hv : v = [] := List.length_eq_zero.mp (by omega)
      subst hu; subst hv
      simpa [lev_nil_left] using ED.nil
  | succ N ih =>
      intro u v h
      match u, v with
      | [], v => rw [lev_nil_left]; exact ED_nil_left v
      | x :: xs, [] => rw [lev_nil_right]; exact ED_nil_right _
      | x :: xs, y :: ys =>
          rw [lev_cons_cons]
          have h1 : ED xs (y :: ys) (lev xs (y :: ys)) := by
            apply ih; simp at h ⊢; omega
          have h2 : ED (x :: xs) ys (lev (x :: xs) ys) := by
            apply ih; simp at h ⊢; omega
          have h3 : ED xs ys (lev xs ys) := by
            apply ih; simp at h ⊢; omega
          rcases Nat.lt_trichotomy (min (lev xs (y :: ys) + 1) (lev (x :: xs) ys + 1))
              (lev xs ys + edCost x y) with hlt | heq | hgt
          · rw [min_eq_left (le_of_lt hlt)]
            rcases le_total (lev xs (y :: ys) + 1) (lev (x :: xs) ys + 1) with hle | hle
            · rw [min_eq_left hle]; exact ED.del x h1
            · rw [min_eq_right hle]; exact ED.ins y h2
          · rw [min_eq_left (le_of_eq heq), heq]
            by_cases hxy : x = y
            · subst hxy; rw [edCost_self]; exact ED.keep x h3
            · rw [show edCost x y = 1 by simp [edCost, hxy]]
              exact ED.sub hxy h3
          · rw [min_eq_right (le_of_lt hgt)]
            by_cases hxy : x = y
            · subst hxy; rw [edCost_self]; exact ED.keep x h3
            · rw [show edCost x y = 1 by simp [edCost, hxy]]
              exact ED.sub hxy h3

theorem ED_lev (u v : List Char) : ED u v (lev u v) :=
  ED_of_lev (u.length + v.length) u v le_rfl

theorem ED_symm {u v : List Char} {n : Nat} (h : ED u v n) : ED v u n := by
  induction h with
  | nil => exact ED.nil
  | keep x _ ih => exact ED.keep x ih
  | sub hxy _ ih => exact ED.sub (Ne.symm hxy) ih
  | del x _ ih => exact ED.ins x ih
  | ins y _ ih => exact ED.del y ih

theorem ED_append {u v u' v' : List Char} {n m : Nat}
    (h : ED u v n) (h' : ED u' v' m) : ED (u ++ u') (v ++ v') (n + m) := by
  induction h with
  | nil => simpa using h'
  | keep x _ ih => exact ED.keep x ih
  | sub hxy _ ih =>
      have := ED.sub hxy ih
      simpa [Nat.add_right_comm] using this
  | del x _ ih =>
      have := ED.del x ih
      simpa [Nat.add_right_comm] using this
  | ins y _ ih =>
      have := ED.ins y ih
      simpa [Nat.add_right_comm] using this

theorem ED_reverse {u v : List Char} {n : Nat} (h : ED u v n) :
    ED u.reverse v.reverse n := by
  induction h with
  | nil => exact ED.nil
  | keep x _ ih =>
      simp only [List.reverse_cons]
      simpa using ED_append ih (ED.keep x ED.nil)
  | sub hxy _ ih =>
      simp only [List.reverse_cons]
      exact ED_append ih (ED.sub hxy ED.nil)
  | del x _ ih =>
      simp only [List.reverse_cons]
      simpa using ED_append ih (ED.del x ED.nil)
  | ins y _ ih =>
      simp only [List.reverse_cons]
      simpa using ED_append ih (ED.ins y ED.nil)

theorem ED_comp : ∀ (N : Nat) (a b c : List Char) (m n : Nat),
    a.length + b.length + c.length ≤ N → ED a b m → ED b c n →
    ∃ k, k ≤ m + n ∧ ED a c k := by
  intro N
  induction N with
  | zero =>
      intro a b c m n hlen h1 h2
      have ha : a = [] := List.length_eq_zero.mp (by omega)
      have hc : c = [] := List.length_eq_zero.mp (by omega)
      subst ha; subst hc
      exact ⟨0, Nat.zero_le _, ED.nil⟩
  | succ N ih =>
      intro a b c m n hlen h1 h2
      cases h2 with
      | ins y h2' =>
          -- c = y :: w; compose a~b with b~w first, then insert y
          obtain ⟨k, hk, hED⟩ := ih a b _ m _ (by simp at hlen ⊢; omega) h1 h2'
          exact ⟨k + 1, by omega, ED.ins y hED⟩
      | nil =>
          -- b = [], c = []
          cases h1 with
          | nil => exact ⟨0, Nat.zero_le _, ED.nil⟩
          | del x h1' =>
              obtain ⟨k, hk, hED⟩ := ih _ [] [] _ 0 (by simp at hlen ⊢; omega) h1' ED.nil
              exact ⟨k + 1, by omega, ED.del x hED⟩
      | keep z h2' =>
          -- b = z :: v, c = z :: w
          cases h1 with
          | keep x h1' =>
              -- a = x :: u with x = z
              obtain ⟨k, hk, hED⟩ := ih _ _ _ _ _ (by simp at hlen ⊢; omega) h1' h2'
              exact ⟨k, by omega, ED.keep _ hED⟩
          | sub hxz h1' =>
              obtain ⟨k, hk, hED⟩ := ih _ _ _ _ _ (by simp at hlen ⊢; omega) h1' h2'
              exact ⟨k + 1, by omega, ED.sub hxz hED⟩
          | del x h1' =>
              obtain ⟨k, hk, hED⟩ := ih _ _ _ _ _ (by simp at hlen ⊢; omega) h1'
                (ED.keep z h2')
              exact ⟨k + 1, by omega, ED.del x hED⟩
          | ins y h1' =>
              -- a ~ v at cost m-1, v ~ w at cost n via h2'
              obtain ⟨k, hk, hED⟩ := ih _ _ _ _ _ (by simp at hlen ⊢; omega) h1' h2'
              exact ⟨k + 1, by omega, ED.ins z hED⟩
      | @sub v w n' z z' hzz h2' =>
          -- b = z :: v, c = z' :: w, z ≠ z'
          cases h1 with
          | keep x h1' =>
              obtain ⟨k, hk, hED⟩ := ih _ _ _ _ _ (by simp at hlen ⊢; omega) h1' h2'
              exact ⟨k + 1, by omega, ED.sub hzz hED⟩
          | @sub u v2 m' x y hxy h1' =>
              -- x ≠ y = z; target x vs z'
              by_cases hxz : x = z'
              · obtain ⟨k, hk, hED⟩ := ih _ _ _ _ _ (by simp at hlen ⊢; omega) h1' h2'
                subst hxz
                exact ⟨k, by omega, ED.keep x hED⟩
              · obtain ⟨k, hk, hED⟩ := ih _ _ _ _ _ (by simp at hlen ⊢; omega) h1' h2'
                exact ⟨k + 1, by omega, ED.sub hxz hED⟩
          | del x h1' =>
              obtain ⟨k, hk, hED⟩ := ih _ _ _ _ _ (by simp at hlen ⊢; omega) h1'
                (ED.sub hzz h2')
              exact ⟨k + 1, by omega, ED.del x hED⟩
          | ins y h1' =>
              obtain ⟨k, hk, hED⟩ := ih _ _ _ _ _ (by simp at hlen ⊢; omega) h1' h2'
              exact ⟨k + 1, by omega, ED.ins z' hED⟩
      | @del v c' n' z h2' =>
          -- b = z :: v, with v ~ c
          cases h1 with
          | keep x h1' =>
              obtain ⟨k, hk, hED⟩ := ih _ _ _ _ _ (by simp at hlen ⊢; omega) h1' h2'
              exact ⟨k + 1, by omega, ED.del z hED⟩
          | sub hxy h1' =>
              obtain ⟨k, hk, hED⟩ := ih _ _ _ _ _ (by simp at hlen ⊢; omega) h1' h2'
              exact ⟨k + 1, by omega, ED.del _ hED⟩
          | del x h1' =>
              obtain ⟨k, hk, hED⟩ := ih _ _ _ _ _ (by simp at hlen ⊢; omega) h1'
                (ED.del z h2')
              exact ⟨k + 1, by omega, ED.del x hED⟩
          | ins y h1' =>
              -- h1' : a ~ v, h2' : v ~ c
              obtain ⟨k, hk, hED⟩ := ih _ _ _ _ _ (by simp at hlen ⊢; omega) h1' h2'
              exact ⟨k, by omega, hED⟩

theorem lev_symm (a b : List Char) : lev a b = lev b a :=
  Nat.le_antisymm (lev_le_of_ED (ED_symm (ED_lev b a)))
    (lev_le_of_ED (ED_symm (ED_lev a b)))

theorem lev_reverse (a b : List Char) : lev a.reverse b.reverse = lev a b := by
  apply Nat.le_antisymm
  · exact lev_le_of_ED (ED_reverse (ED_lev a b))
  · have := lev_le_of_ED (ED_reverse (ED_lev a.reverse b.reverse))
    simpa using this

theorem lev_triangle (a b c : List Char) : lev a c ≤ lev a b + lev b c := by
  obtain ⟨k, hk, hED⟩ := ED_comp (a.length + b.length + c.length) a b c _ _
    le_rfl (ED_lev a b) (ED_lev b c)
  exact le_trans (lev_le_of_ED hED) hk

/-- Inner loop of `_edit_distance`: builds the tail of `current` while walking
`b`; `cur` is the last value appended to `current` (`current[j-1]`), and the
list argument is the suffix of `prev` starting at index `j-1`, so its first
two entries are `prev[j-1]` and `prev[j]`. -/
def dpInner (ca : Char) : List Char → List Nat → Nat → List Nat
  | [], _, _ => []
  | cb :: bs, p0 :: p1 :: ps, cur =>
      let v := min (min (cur + 1) (p1 + 1)) (p0 + edCost ca cb)
      v :: dpInner ca bs (p1 :: ps) v
  | _ :: _, _, _ => []

/-- Outer loop of `_edit_distance`: one iteration per character of `a`
(`enumerate(a, start=1)`), replacing `prev` by `current = [i] ++ inner`. -/
def dpOuter : List Char → List Char → List Nat → Nat → List Nat
  | [], _, prev, _ => prev
  | ca :: as_, b, prev, i =>
      dpOuter as_ b ((i + 1) :: dpInner ca b prev (i + 1)) (i + 1)

/-- Model of `_edit_distance` (cleaner.py lines 19–35): early returns for
equal / empty inputs, then the rolling-row dynamic program; the result is
`prev[-1]`. -/
def edit_distance (a b : List Char) : Nat :=
  if a = b then 0
  else if a = [] then b.length
  else if b = [] then a.length
  else (dpOuter a b (List.range (b.length + 1)) 0).getLastD 0

/-- The values `lev P (prefix-of-bs reversed onto Q)` for all prefixes of
`bs`, the semantic content of one DP row. -/
def levList (P Q : List Char) : List Char → List Nat
  | [] => [lev P Q]
  | cb :: bs => lev P Q :: levList P (cb :: Q) bs

theorem levList_head (P Q : List Char) (bs : List Char) :
    ∃ t, levList P Q bs = lev P Q :: t := by
  cases bs <;> exact ⟨_, rfl⟩

theorem dpInner_spec (ca : Char) :
    ∀ (bs : List Char) (P Q : List Char),
      levList (ca :: P) Q bs =
        lev (ca :: P) Q :: dpInner ca bs (levList P Q bs) (lev (ca :: P) Q) := by
  intro bs
  induction bs with
  | nil => intro P Q; simp [levList, dpInner]
  | cons cb bs ih =>
      intro P Q
      obtain ⟨t, ht⟩ := levList_head P (cb :: Q) bs
      have hrow : levList P Q (cb :: bs) = lev P Q :: lev P (cb :: Q) :: t := by
        rw [show levList P Q (cb :: bs) = lev P Q :: levList P (cb :: Q) bs from rfl, ht]
      rw [hrow]
      have hv : min (min (lev (ca :: P) Q + 1) (lev P (cb :: Q) + 1))
          (lev P Q + edCost ca cb) = lev (ca :: P) (cb :: Q) := by
        rw [lev_cons_cons]
        omega
      show levList (ca :: P) Q (cb :: bs) = _
      rw [show levList (ca :: P) Q (cb :: bs)
            = lev (ca :: P) Q :: levList (ca :: P) (cb :: Q) bs from rfl]
      congr 1
      rw [dpInner, ← ht]
      simp only [hv]
      exact ih P (cb :: Q)

theorem dpOuter_spec (b : List Char) :
    ∀ (as_ : List Char) (P : List Char),
      dpOuter as_ b (levList P [] b) P.length = levList (as_.reverse ++ P) [] b := by
  intro as_
  induction as_ with
  | nil => intro P; simp [dpOuter]
  | cons ca as_ ih =>
      intro P
      rw [dpOuter]
      have hcur : P.length + 1 = lev (ca :: P) [] := by
        rw [lev_nil_right]; simp
      have hrow : (P.length + 1) :: dpInner ca b (levList P [] b) (P.length + 1)
          = levList (ca :: P) [] b := by
        rw [hcur]
        exact (dpInner_spec ca b P []).symm
      rw [hrow]
      have := ih (ca :: P)
      simp only [List.length_cons] at this
      rw [this]
      simp

theorem levList_range (b : List Char) :
    ∀ (Q : List Char), levList [] Q b = List.range' Q.length (b.length + 1) := by
  induction b with
  | nil => intro Q; simp [levList, lev_nil_left, List.range']
  | cons cb bs ih =>
      intro Q
      rw [show levList [] Q (cb :: bs) = lev [] Q :: levList [] (cb :: Q) bs from rfl]
      rw [lev_nil_left, ih (cb :: Q)]
      simp [List.range']

theorem levList_getLast (P : List Char) :
    ∀ (bs Q : List Char), (levList P Q bs).getLastD 0 = lev P (bs.reverse ++ Q) := by
  intro bs
  induction bs with
  | nil => intro Q; simp [levList]
  | cons cb bs ih =>
      intro Q
      obtain ⟨t, ht⟩ := levList_head P (cb :: Q) bs
      have h1 : (levList P Q (cb :: bs)).getLastD 0
          = (levList P (cb :: Q) bs).getLastD 0 := by
        simp only [show levList P Q (cb :: bs)
          = lev P Q :: levList P (cb :: Q) bs from rfl, ht, List.getLastD_cons]
      rw [h1, ih (cb :: Q)]
      simp

/-- The dynamic program of `_edit_distance` computes the classic Levenshtein
distance. -/
theorem edit_distance_eq_lev (a b : List Char) : edit_distance a b = lev a b := by
  unfold edit_distance
  by_cases hab : a = b
  · rw [if_pos hab, hab, lev_self]
  rw [if_neg hab]
  by_cases ha : a = []
  · rw [if_pos ha, ha, lev_nil_left]
  rw [if_neg ha]
  by_cases hb : b = []
  · rw [if_pos hb, hb, lev_nil_right]
  rw [if_neg hb]
  have hinit : List.range (b.length + 1) = levList [] [] b := by
    rw [levList_range b []]
    simp [List.range_eq_range']
  rw [hinit]
  have houter := dpOuter_spec b a []
  simp only [List.length_nil, List.append_nil] at houter
  rw [houter, levList_getLast a.reverse b []]
  simp only [List.append_nil]
  exact lev_reverse a b

/-! ## Case pattern transfer

`_match_case` (cleaner.py lines 38–43) relies on Python's `str.isupper`,
`str.istitle`, `str.islower`, `str.upper`, `str.capitalize`, `str.lower`.
These are modelled for the ASCII range (word tokens produced by `WORD_RE`
consist of ASCII letters and apostrophes only, so the source-token side is
always ASCII; the model treats non-ASCII characters as uncased, like Python
treats uncased characters).
-/

def isUpperCh (c : Char) : Bool := 'A' ≤ c && c ≤ 'Z'

def isLowerCh (c : Char) : Bool := 'a' ≤ c && c ≤ 'z'

def isCasedCh (c : Char) : Bool := isUpperCh c || isLowerCh c

def toUpperCh (c : Char) : Char :=
  if isLowerCh c then Char.ofNat (c.toNat - 32) else c

def toLowerCh (c : Char) : Char :=
  if isUpperCh c then Char.ofNat (c.toNat + 32) else c

/-- Python `str.isupper`: at least one cased character and no lowercase. -/
def pyIsUpper (s : List Char) : Bool :=
  s.any isCasedCh && s.all (fun c => !isLowerCh c)

/-- Python `str.islower`: at least one cased character and no uppercase. -/
def pyIsLower (s : List Char) : Bool :=
  s.any isCasedCh && s.all (fun c => !isUpperCh c)

/-- Python `str.istitle` scan: uppercase may only follow uncased, lowercase
may only follow cased, and at least one cased character occurs. -/
def pyIsTitleAux : List Char → Bool → Bool → Bool
  | [], _, cased => cased
  | c :: rest, prevCased, cased =>
      if isUpperCh c then
        if prevCased then false else pyIsTitleAux rest true true
      else if isLowerCh c then
        if prevCased then pyIsTitleAux rest true true else false
      else pyIsTitleAux rest false cased

def pyIsTitle (s : List Char) : Bool := pyIsTitleAux s false false

/-- Python `str.upper` (ASCII model). -/
def pyUpper (s : List Char) : List Char := s.map toUpperCh

/-- Python `str.lower` (ASCII model). -/
def pyLower (s : List Char) : List Char := s.map toLowerCh

/-- Python `str.capitalize`: first character upper-cased, the rest
lower-cased. -/
def pyCapitalize : List Char → List Char
  | [] => []
  | c :: rest => toUpperCh c :: rest.map toLowerCh

/-- Model of `_match_case` (cleaner.py lines 38–43). -/
def match_case (source suggestion : List Char) : List Char :=
  if pyIsUpper source then pyUpper suggestion
  else if pyIsTitle source then pyCapitalize suggestion
  else if pyIsLower source then pyLower suggestion
  else suggestion

/-! ## Charset normalization

`normalize_charset` (cleaner.py lines 46–54).  The two `str.replace` calls
are specialized scans; `unicodedata` is abstracted as a `UnicodeModel`.
Charset narrowing `encode(codec, errors="ignore").decode(codec)` keeps
exactly the characters representable in the codec: code points ≤ 0xFF for
latin-1, ≤ 0x7F for ascii.
-/

/-- Abstraction of the `unicodedata` capability used by `normalize_charset`:
`nfkc` is `unicodedata.normalize("NFKC", ·)` and `isOtherCategory ch` is
`unicodedata.category(ch)[0] == "C"`. -/
structure UnicodeModel where
  nfkc : List Char → List Char
  isOtherCategory : Char → Bool

/-- `text.replace("\r\n", "\n")`: leftmost non-overlapping scan. -/
def replaceCRLF : List Char → List Char
  | [] => []
  | [c] => [c]
  | c :: m :: rest =>
      if c = '\r' && m = '\n' then '\n' :: replaceCRLF rest
      else c :: replaceCRLF (m :: rest)

/-- `text.replace("\r", "\n")`: single-character replacement. -/
def replaceCR (s : List Char) : List Char :=
  s.map (fun c => if c = '\r' then '\n' else c)

/-- The character filter of line 48: keep `\n`, keep `\t`, drop everything
whose Unicode general category starts with `C`. -/
def keepChar (U : UnicodeModel) (ch : Char) : Bool :=
  ch = '\n' || ch = '\t' || !U.isOtherCategory ch

/-- Errors raised by the core (`ValueError` in the source; the spec names
them `UnsupportedCharsetError` and `OverlapError`). -/
inductive CleanError where
  | unsupportedCharset
  | overlap
deriving DecidableEq, Repr

/-- Model of `normalize_charset` (cleaner.py lines 46–54). -/
def normalize_charset (U : UnicodeModel) (text : List Char)
    (target_charset : String) : Except CleanError (List Char) :=
  let normalized := U.nfkc (replaceCR (replaceCRLF text))
  let normalized := normalized.filter (keepChar U)
  if target_charset = "utf-8" then
    .ok normalized
  else if target_charset = "latin-1" || target_charset = "ascii" then
    .ok (normalized.filter (fun ch =>
      ch.toNat ≤ if target_charset = "latin-1" then 0xFF else 0x7F))
  else
    .error .unsupportedCharset

/-! ## Edit replayer

`apply_edits` (cleaner.py lines 73–86).  An `Edit` is the dict
`{"start": …, "end": …, "replacement": …}`; in every list the repository
produces the offsets are the non-negative opcode offsets, so they are
modelled as `Nat`. -/

structure Edit where
  start : Nat
  «end» : Nat
  replacement : List Char
deriving DecidableEq, Repr

/-- The loop of `apply_edits` with the running `cursor`; the Python loop
appends `original[cursor:start]`, then `replacement`, sets `cursor = end`,
and after the loop appends `original[cursor:]`.  A `start < cursor` raises
`ValueError("Edits overlap or are out of order.")`. -/
def apply_edits_from (original : List Char) (cursor : Nat) :
    List Edit → Except CleanError (List Char)
  | [] => .ok (original.drop cursor)
  | e :: rest =>
      if e.start < cursor then
        .error .overlap
      else
        match apply_edits_from original e.«end» rest with
        | .ok tail => .ok (slice original cursor e.start ++ e.replacement ++ tail)
        | .error err => .error err

/-- Model of `apply_edits` (cleaner.py lines 73–86). -/
def apply_edits (original : List Char) (edits : List Edit) :
    Except CleanError (List Char) :=
  apply_edits_from original 0 edits

/-- The guard actually enforced by `apply_edits`: every edit's `start` is at
least the running cursor (the previous edit's `end`, initially 0). -/
def editsOrdered (cursor : Nat) : List Edit → Bool
  | [] => true
  | e :: rest => decide (cursor ≤ e.start) && editsOrdered e.«end» rest

/-- The output of a successful replay, spelled out: the untouched span
before each edit, then the replacement, and after the last edit the tail of
`original`. -/
def replaySpec (original : List Char) (cursor : Nat) : List Edit → List Char
  | [] => original.drop cursor
  | e :: rest => slice original cursor e.start ++ e.replacement
      ++ replaySpec original e.«end» rest

theorem apply_edits_from_ok (original : List Char) :
    ∀ (edits : List Edit) (cursor : Nat), editsOrdered cursor edits = true →
      apply_edits_from original cursor edits = .ok (replaySpec original cursor edits) := by
  intro edits
  induction edits with
  | nil => intro cursor _; rfl
  | cons e rest ih =>
      intro cursor h
      simp only [editsOrdered, Bool.and_eq_true, decide_eq_true_eq] at h
      obtain ⟨h1, h2⟩ := h
      rw [apply_edits_from, if_neg (by omega), ih e.«end» h2]
      rfl

theorem apply_edits_from_error (original : List Char) :
    ∀ (edits : List Edit) (cursor : Nat), editsOrdered cursor edits = false →
      apply_edits_from original cursor edits = .error .overlap := by
  intro edits
  induction edits with
  | nil => intro cursor h; simp [editsOrdered] at h
  | cons e rest ih =>
      intro cursor h
      simp only [editsOrdered, Bool.and_eq_false_iff] at h
      rw [apply_edits_from]
      rcases h with h | h
      · rw [if_pos (by simpa [decide_eq_false_iff_not] using h)]
      · by_cases hc : e.start < cursor
        · rw [if_pos hc]
        · rw [if_neg hc, ih e.«end» h]

/-- Shifting the cursor forward over a span no edit touches only prepends
the skipped slice of the original. -/
theorem apply_edits_from_shift (original : List Char) (edits : List Edit)
    {c c' : Nat} (hcc : c ≤ c')
    (hfirst : ∀ e rest, edits = e :: rest → c' ≤ e.start) :
    apply_edits_from original c edits =
      (apply_edits_from original c' edits).map (slice original c c' ++ ·) := by
  cases edits with
  | nil =>
      simp only [apply_edits_from, Except.map]
      rw [drop_eq_slice_append original hcc]
  | cons e rest =>
      have hstart := hfirst e rest rfl
      simp only [apply_edits_from]
      rw [if_neg (by omega), if_neg (by omega)]
      cases apply_edits_from original e.«end» rest with
      | ok tail =>
          simp only [Except.map]
          rw [← List.append_assoc, ← List.append_assoc,
            slice_append original hcc hstart]
      | error err => simp [Except.map]

/-! ## Sequence alignment (difflib.SequenceMatcher model)

`build_edits` (cleaner.py lines 57–70) drives
`SequenceMatcher(a=original, b=cleaned, autojunk=False)`.  With
`autojunk=False` and no junk predicate, `find_longest_match(alo, ahi, blo,
bhi)` returns, per its documented contract, the longest block `(i, j, k)`
with `a[i:i+k] == b[j:j+k]`, `alo <= i <= i+k <= ahi`,
`blo <= j <= j+k <= bhi`; among maximal blocks it starts earliest in `a`,
then earliest in `b`.  That contract is modelled by a maximum over all
candidate positions taken in lexicographic order with strict improvement,
which realizes exactly that tie-breaking.  `get_matching_blocks` explores
sub-ranges on both sides of each found block and returns the blocks in
ascending order (the Python version uses an explicit stack and sorts; the
recursion here emits them in ascending order directly), merges adjacent
blocks, and appends the `(len(a), len(b), 0)` sentinel. -/

/-- A matching block `(i, j, size)`. -/
abbrev Block := Nat × Nat × Nat

/-- Length of the longest common prefix. -/
def matchLen : List Char → List Char → Nat
  | [], _ => 0
  | _ :: _, [] => 0
  | x :: xs, y :: ys => if x = y then matchLen xs ys + 1 else 0

/-- Size of the maximal matching block starting at `(i, j)` inside the
window `[·, ahi) × [·, bhi)`. -/
def matchLenAt (a b : List Char) (i j ahi bhi : Nat) : Nat :=
  min (matchLen (a.drop i) (b.drop j)) (min (ahi - i) (bhi - j))

/-- All candidate blocks of the window, in lexicographic position order. -/
def flmCandidates (a b : List Char) (alo ahi blo bhi : Nat) : List Block :=
  (List.range' alo (ahi - alo)).flatMap (fun i =>
    (List.range' blo (bhi - blo)).map (fun j => (i, j, matchLenAt a b i j ahi bhi)))

/-- Model of `SequenceMatcher.find_longest_match` restricted to
`[alo, ahi) × [blo, bhi)` (no junk, `autojunk=False`): the longest matching
block, earliest in `a` then in `b` among maximal ones, `(alo, blo, 0)` when
there is no non-empty match. -/
def find_longest_match (a b : List Char) (alo ahi blo bhi : Nat) : Block :=
  (flmCandidates a b alo ahi blo bhi).foldl
    (fun best c => if best.2.2 < c.2.2 then c else best) (alo, blo, 0)

/-- Model of the block-finding recursion of
`SequenceMatcher.get_matching_blocks`: find the longest match of the
current window, then recurse on the sub-windows to its left and right.
The first argument is structural fuel; any fuel of at least `ahi - alo`
steps gives the fixpoint (see `matching_blocks_rec_fuel`). -/
def matching_blocks_rec (a b : List Char) :
    Nat → Nat → Nat → Nat → Nat → List Block
  | 0, _, _, _, _ => []
  | fuel + 1, alo, ahi, blo, bhi =>
      let m := find_longest_match a b alo ahi blo bhi
      if m.2.2 = 0 then []
      else
        matching_blocks_rec a b fuel alo m.1 blo m.2.1
          ++ m :: matching_blocks_rec a b fuel (m.1 + m.2.2) ahi (m.2.1 + m.2.2) bhi

/-- The adjacent-block merging loop at the end of
`SequenceMatcher.get_matching_blocks`, carrying the pending block
`(i1, j1, k1)` (initially `(0, 0, 0)`). -/
def mergeAux : Nat → Nat → Nat → List Block → List Block
  | i1, j1, k1, [] => if k1 ≠ 0 then [(i1, j1, k1)] else []
  | i1, j1, k1, (i2, j2, k2) :: rest =>
      if i1 + k1 = i2 ∧ j1 + k1 = j2 then mergeAux i1 j1 (k1 + k2) rest
      else (if k1 ≠ 0 then [(i1, j1, k1)] else []) ++ mergeAux i2 j2 k2 rest

/-- Model of `SequenceMatcher.get_matching_blocks`: found blocks in
ascending order, adjacent blocks merged, then the terminating sentinel
`(len(a), len(b), 0)`. -/
def get_matching_blocks (a b : List Char) : List Block :=
  mergeAux 0 0 0 (matching_blocks_rec a b a.length 0 a.length 0 b.length)
    ++ [(a.length, b.length, 0)]

/-- Opcode tags of `SequenceMatcher.get_opcodes`. -/
inductive Tag where
  | replace
  | delete
  | insert
  | equal
deriving DecidableEq, Repr

/-- An opcode `(tag, i1, i2, j1, j2)`. -/
structure Opcode where
  tag : Tag
  i1 : Nat
  i2 : Nat
  j1 : Nat
  j2 : Nat
deriving DecidableEq, Repr

/-- The tag selection of `get_opcodes`: the non-`equal` opcode emitted (if
any) for the gap between the cursors `(i, j)` and the next block
`(ai, bj, ·)`. -/
def nonEqualOp (i j ai bj : Nat) : List Opcode :=
  if i < ai ∧ j < bj then [⟨Tag.replace, i, ai, j, bj⟩]
  else if i < ai then [⟨Tag.delete, i, ai, j, bj⟩]
  else if j < bj then [⟨Tag.insert, i, ai, j, bj⟩]
  else []

/-- The loop of `SequenceMatcher.get_opcodes` over the matching blocks,
with running cursors `i`, `j`. -/
def opcodesAux : Nat → Nat → List Block → List Opcode
  | _, _, [] => []
  | i, j, (ai, bj, size) :: rest =>
      nonEqualOp i j ai bj
      ++ (if size ≠ 0 then [⟨Tag.equal, ai, ai + size, bj, bj + size⟩] else [])
      ++ opcodesAux (ai + size) (bj + size) rest

/-- Model of `SequenceMatcher.get_opcodes`. -/
def get_opcodes (a b : List Char) : List Opcode :=
  opcodesAux 0 0 (get_matching_blocks a b)

/-- The body of the loop in `build_edits`: skip `equal` opcodes, turn every
other opcode into an `Edit` whose replacement is `cleaned[j1:j2]`. -/
def editOfOpcode (cleaned : List Char) (op : Opcode) : Option Edit :=
  if op.tag = Tag.equal then none
  else some { start := op.i1, «end» := op.i2,
              replacement := slice cleaned op.j1 op.j2 }

/-- Model of `build_edits` (cleaner.py lines 57–70): one `Edit` per
non-`equal` opcode, `replacement` being the matching slice of `cleaned`. -/
def build_edits (original cleaned : List Char) : List Edit :=
  (get_opcodes original cleaned).filterMap (editOfOpcode cleaned)

theorem matchLen_take_eq : ∀ (u v : List Char) (k : Nat), k ≤ matchLen u v →
    u.take k = v.take k := by
  intro u
  induction u with
  | nil =>
      intro v k h
      rw [show matchLen [] v = 0 from rfl] at h
      have : k = 0 := by omega
      simp [this]
  | cons x xs ih =>
      intro v k h
      cases v with
      | nil =>
          rw [show matchLen (x :: xs) [] = 0 from rfl] at h
          have : k = 0 := by omega
          simp [this]
      | cons y ys =>
          rw [show matchLen (x :: xs) (y :: ys)
            = if x = y then matchLen xs ys + 1 else 0 from rfl] at h
          by_cases hxy : x = y
          · rw [if_pos hxy] at h
            cases k with
            | zero => simp
            | succ k' =>
                subst hxy
                simp only [List.take_succ_cons]
                rw [ih ys k' (by omega)]
          · rw [if_neg hxy] at h
            have : k = 0 := by omega
            simp [this]

/-- The cursor-threaded ordering invariant on a block list: blocks lie at or
after `(ci, cj)`, are pairwise non-overlapping in ascending order, and end
at or before `(hi, hj)`. -/
def ChainTo (ci cj hi hj : Nat) : List Block → Prop
  | [] => ci ≤ hi ∧ cj ≤ hj
  | blk :: rest =>
      ci ≤ blk.1 ∧ cj ≤ blk.2.1 ∧ ChainTo (blk.1 + blk.2.2) (blk.2.1 + blk.2.2) hi hj rest

theorem ChainTo_weaken {ci cj hi hj ci' cj' : Nat} (h1 : ci' ≤ ci) (h2 : cj' ≤ cj) :
    ∀ {l : List Block}, ChainTo ci cj hi hj l → ChainTo ci' cj' hi hj l := by
  intro l h
  cases l with
  | nil =>
      obtain ⟨ha, hb⟩ := h
      exact ⟨by omega, by omega⟩
  | cons blk rest =>
      obtain ⟨ha, hb, hc⟩ := h
      exact ⟨by omega, by omega, hc⟩

theorem ChainTo_append {m n p q : Nat} :
    ∀ {l1 : List Block} {ci cj : Nat}, ChainTo ci cj m n l1 →
      ∀ {l2 : List Block}, ChainTo m n p q l2 → ChainTo ci cj p q (l1 ++ l2) := by
  intro l1
  induction l1 with
  | nil =>
      intro ci cj h1 l2 h2
      exact ChainTo_weaken h1.1 h1.2 h2
  | cons blk rest ih =>
      intro ci cj h1 l2 h2
      obtain ⟨ha, hb, hc⟩ := h1
      exact ⟨ha, hb, ih hc h2⟩

theorem ChainTo_le {hi hj : Nat} :
    ∀ {l : List Block} {ci cj : Nat}, ChainTo ci cj hi hj l → ci ≤ hi ∧ cj ≤ hj := by
  intro l
  induction l with
  | nil => intro ci cj h; exact h
  | cons blk rest ih =>
      intro ci cj h
      obtain ⟨ha, hb, hc⟩ := h
      have := ih hc
      constructor <;> omega

/-- The block-validity predicate delivered by `find_longest_match`. -/
def BlockSpec (a b : List Char) (alo ahi blo bhi : Nat) (blk : Block) : Prop :=
  alo ≤ blk.1 ∧ blk.1 + blk.2.2 ≤ ahi ∧ blo ≤ blk.2.1 ∧ blk.2.1 + blk.2.2 ≤ bhi ∧
    (a.drop blk.1).take blk.2.2 = (b.drop blk.2.1).take blk.2.2

theorem flmCandidates_spec {a b : List Char} {alo ahi blo bhi : Nat}
    {blk : Block} (h : blk ∈ flmCandidates a b alo ahi blo bhi) :
    BlockSpec a b alo ahi blo bhi blk := by
  simp only [flmCandidates, List.mem_flatMap, List.mem_map, List.mem_range'_1] at h
  obtain ⟨i, ⟨hi1, hi2⟩, j, ⟨hj1, hj2⟩, rfl⟩ := h
  have hk1 : matchLenAt a b i j ahi bhi ≤ matchLen (a.drop i) (b.drop j) := by
    simp [matchLenAt]
  have hk2 : matchLenAt a b i j ahi bhi ≤ ahi - i := by
    simp only [matchLenAt]; omega
  have hk3 : matchLenAt a b i j ahi bhi ≤ bhi - j := by
    simp only [matchLenAt]; omega
  refine ⟨hi1, by simp only; omega, hj1, by simp only; omega, ?_⟩
  exact matchLen_take_eq _ _ _ hk1

theorem foldl_best_spec {P : Block → Prop} :
    ∀ (l : List Block) (acc : Block), P acc → (∀ c ∈ l, P c) →
      P (l.foldl (fun best c => if best.2.2 < c.2.2 then c else best) acc) := by
  intro l
  induction l with
  | nil => intro acc hacc _; exact hacc
  | cons c cs ih =>
      intro acc hacc hcand
      simp only [List.foldl_cons]
      apply ih
      · by_cases hlt : acc.2.2 < c.2.2
        · rw [if_pos hlt]; exact hcand c (by simp)
        · rw [if_neg hlt]; exact hacc
      · intro c' hc'; exact hcand c' (by simp [hc'])

theorem find_longest_match_spec (a b : List Char) (alo ahi blo bhi : Nat)
    (h1 : alo ≤ ahi) (h2 : blo ≤ bhi) :
    BlockSpec a b alo ahi blo bhi (find_longest_match a b alo ahi blo bhi) := by
  unfold find_longest_match
  apply foldl_best_spec
  · refine ⟨le_rfl, ?_, le_rfl, ?_, by simp⟩
    · show alo + 0 ≤ ahi; omega
    · show blo + 0 ≤ bhi; omega
  · intro c hc
    exact flmCandidates_spec hc

/-- The equal-slice property of a matching block. -/
def SliceEq (a b : List Char) (blk : Block) : Prop :=
  (a.drop blk.1).take blk.2.2 = (b.drop blk.2.1).take blk.2.2

theorem SliceEq_concat {a b : List Char} {i1 j1 k1 k2 : Nat}
    (h1 : SliceEq a b (i1, j1, k1)) (h2 : SliceEq a b (i1 + k1, j1 + k1, k2)) :
    SliceEq a b (i1, j1, k1 + k2) := by
  unfold SliceEq at h1 h2 ⊢
  simp only at h1 h2 ⊢
  rw [List.take_add, List.take_add]
  have ha : (a.drop i1).drop k1 = a.drop (i1 + k1) := by
    rw [List.drop_drop]
  have hb : (b.drop j1).drop k1 = b.drop (j1 + k1) := by
    rw [List.drop_drop]
  rw [ha, hb, h1, h2]

theorem matching_blocks_rec_chain (a b : List Char) :
    ∀ (fuel alo ahi blo bhi : Nat), alo ≤ ahi → blo ≤ bhi → ahi - alo ≤ fuel →
      ChainTo alo blo ahi bhi (matching_blocks_rec a b fuel alo ahi blo bhi) := by
  intro fuel
  induction fuel with
  | zero =>
      intro alo ahi blo bhi h1 h2 _
      exact ⟨h1, h2⟩
  | succ fuel ih =>
      intro alo ahi blo bhi h1 h2 hf
      obtain ⟨s1, s2, s3, s4, s5⟩ := find_longest_match_spec a b alo ahi blo bhi h1 h2
      simp only [matching_blocks_rec]
      by_cases hk : (find_longest_match a b alo ahi blo bhi).2.2 = 0
      · rw [if_pos hk]; exact ⟨h1, h2⟩
      · rw [if_neg hk]
        have hleft := ih alo (find_longest_match a b alo ahi blo bhi).1 blo
          (find_longest_match a b alo ahi blo bhi).2.1 s1 s3 (by omega)
        have hright := ih ((find_longest_match a b alo ahi blo bhi).1
              + (find_longest_match a b alo ahi blo bhi).2.2) ahi
          ((find_longest_match a b alo ahi blo bhi).2.1
              + (find_longest_match a b alo ahi blo bhi).2.2) bhi
          s2 s4 (by omega)
        exact ChainTo_append hleft ⟨le_rfl, le_rfl, hright⟩

theorem matching_blocks_rec_sliceEq (a b : List Char) :
    ∀ (fuel alo ahi blo bhi : Nat), alo ≤ ahi → blo ≤ bhi →
      ∀ blk ∈ matching_blocks_rec a b fuel alo ahi blo bhi, SliceEq a b blk := by
  intro fuel
  induction fuel with
  | zero =>
      intro alo ahi blo bhi _ _ blk hmem
      simp [matching_blocks_rec] at hmem
  | succ fuel ih =>
      intro alo ahi blo bhi h1 h2 blk hmem
      obtain ⟨s1, s2, s3, s4, s5⟩ := find_longest_match_spec a b alo ahi blo bhi h1 h2
      simp only [matching_blocks_rec] at hmem
      by_cases hk : (find_longest_match a b alo ahi blo bhi).2.2 = 0
      · rw [if_pos hk] at hmem; simp at hmem
      · rw [if_neg hk] at hmem
        rw [List.mem_append, List.mem_cons] at hmem
        rcases hmem with hmem | hmem | hmem
        · exact ih alo _ blo _ s1 s3 blk hmem
        · subst hmem; exact s5
        · exact ih _ ahi _ bhi s2 s4 blk hmem

theorem mergeAux_chain {hi hj : Nat} :
    ∀ (blocks : List Block) (i1 j1 k1 : Nat),
      ChainTo (i1 + k1) (j1 + k1) hi hj blocks →
      ChainTo i1 j1 hi hj (mergeAux i1 j1 k1 blocks) := by
  intro blocks
  induction blocks with
  | nil =>
      intro i1 j1 k1 h
      obtain ⟨ha, hb⟩ := h
      rw [mergeAux]
      by_cases hk : k1 ≠ 0
      · rw [if_pos hk]
        exact ⟨le_rfl, le_rfl, ha, hb⟩
      · rw [if_neg hk]
        exact ⟨by omega, by omega⟩
  | cons blk rest ih =>
      intro i1 j1 k1 h
      obtain ⟨i2, j2, k2⟩ := blk
      obtain ⟨ha, hb, hc⟩ := h
      simp only at ha hb hc
      rw [mergeAux]
      by_cases hadj : i1 + k1 = i2 ∧ j1 + k1 = j2
      · rw [if_pos hadj]
        apply ih
        have hi2 : i1 + (k1 + k2) = i2 + k2 := by omega
        have hj2 : j1 + (k1 + k2) = j2 + k2 := by omega
        rw [hi2, hj2]
        exact hc
      · rw [if_neg hadj]
        have hrest := ih i2 j2 k2 hc
        by_cases hk : k1 ≠ 0
        · rw [if_pos hk]
          exact ChainTo_append
            (show ChainTo i1 j1 (i1 + k1) (j1 + k1) [(i1, j1, k1)] from
              ⟨le_rfl, le_rfl, le_rfl, le_rfl⟩)
            (ChainTo_weaken ha hb hrest)
        · rw [if_neg hk]
          simp only [List.nil_append]
          exact ChainTo_weaken (by omega) (by omega) hrest

theorem mergeAux_sliceEq {a b : List Char} :
    ∀ (blocks : List Block) (i1 j1 k1 : Nat),
      SliceEq a b (i1, j1, k1) →
      (∀ blk ∈ blocks, SliceEq a b blk) →
      ∀ blk ∈ mergeAux i1 j1 k1 blocks, SliceEq a b blk := by
  intro blocks
  induction blocks with
  | nil =>
      intro i1 j1 k1 hcur _ blk hmem
      rw [mergeAux] at hmem
      by_cases hk : k1 ≠ 0
      · rw [if_pos hk] at hmem
        simp at hmem
        subst hmem
        exact hcur
      · rw [if_neg hk] at hmem; simp at hmem
  | cons hd rest ih =>
      intro i1 j1 k1 hcur hall blk hmem
      obtain ⟨i2, j2, k2⟩ := hd
      rw [mergeAux] at hmem
      by_cases hadj : i1 + k1 = i2 ∧ j1 + k1 = j2
      · rw [if_pos hadj] at hmem
        refine ih i1 j1 (k1 + k2) ?_ (fun x hx => hall x (by simp [hx])) blk hmem
        apply SliceEq_concat hcur
        rw [hadj.1, hadj.2]
        exact hall (i2, j2, k2) (by simp)
      · rw [if_neg hadj] at hmem
        rw [List.mem_append] at hmem
        rcases hmem with hmem | hmem
        · by_cases hk : k1 ≠ 0
          · rw [if_pos hk] at hmem
            simp at hmem
            subst hmem
            exact hcur
          · rw [if_neg hk] at hmem; simp at hmem
        · exact ih i2 j2 k2 (hall (i2, j2, k2) (by simp))
            (fun x hx => hall x (by simp [hx])) blk hmem

theorem get_matching_blocks_chain (a b : List Char) :
    ChainTo 0 0 a.length b.length (get_matching_blocks a b) := by
  unfold get_matching_blocks
  have hrec := matching_blocks_rec_chain a b a.length 0 a.length 0 b.length
    (Nat.zero_le _) (Nat.zero_le _) (by omega)
  have hmerge := mergeAux_chain
    (matching_blocks_rec a b a.length 0 a.length 0 b.length) 0 0 0 hrec
  refine ChainTo_append hmerge ⟨le_rfl, le_rfl, ?_, ?_⟩
  · show a.length + 0 ≤ a.length; omega
  · show b.length + 0 ≤ b.length; omega

theorem get_matching_blocks_sliceEq (a b : List Char) :
    ∀ blk ∈ get_matching_blocks a b, SliceEq a b blk := by
  intro blk hmem
  unfold get_matching_blocks at hmem
  rw [List.mem_append] at hmem
  rcases hmem with hmem | hmem
  · exact mergeAux_sliceEq _ 0 0 0 (by simp [SliceEq])
      (matching_blocks_rec_sliceEq a b a.length 0 a.length 0 b.length
        (Nat.zero_le _) (Nat.zero_le _)) blk hmem
  · simp at hmem
    subst hmem
    simp [SliceEq]

theorem get_matching_blocks_getLast (a b : List Char) :
    (get_matching_blocks a b).getLast? = some (a.length, b.length, 0) := by
  unfold get_matching_blocks
  exact List.getLast?_concat _

theorem nonEqualOp_mem {i j ai bj : Nat} {op : Opcode}
    (h : op ∈ nonEqualOp i j ai bj) :
    op.tag ≠ Tag.equal ∧ op.i1 = i ∧ op.i2 = ai ∧ op.j1 = j ∧ op.j2 = bj := by
  unfold nonEqualOp at h
  split at h
  · simp at h; subst h; simp
  · split at h
    · simp at h; subst h; simp
    · split at h
      · simp at h; subst h; simp
      · simp at h

theorem nonEqualOp_cases (i j ai bj : Nat) (hij : i ≤ ai) (hjj : j ≤ bj) :
    (i = ai ∧ j = bj ∧ nonEqualOp i j ai bj = []) ∨
      ∃ t, t ≠ Tag.equal ∧ nonEqualOp i j ai bj = [⟨t, i, ai, j, bj⟩] := by
  unfold nonEqualOp
  by_cases h1 : i < ai ∧ j < bj
  · right
    exact ⟨Tag.replace, by simp, by rw [if_pos h1]⟩
  · rw [if_neg h1]
    by_cases h2 : i < ai
    · right
      refine ⟨Tag.delete, by simp, ?_⟩
      rw [if_pos h2]
    · rw [if_neg h2]
      by_cases h3 : j < bj
      · right
        refine ⟨Tag.insert, by simp, ?_⟩
        rw [if_pos h3]
      · rw [if_neg h3]
        left
        exact ⟨by omega, by omega, rfl⟩

theorem opcodesAux_i1_ge {hi hj : Nat} :
    ∀ (blocks : List Block) (i j : Nat), ChainTo i j hi hj blocks →
      ∀ op ∈ opcodesAux i j blocks, i ≤ op.i1 := by
  intro blocks
  induction blocks with
  | nil => intro i j _ op hmem; simp [opcodesAux] at hmem
  | cons blk rest ih =>
      intro i j hchain op hmem
      obtain ⟨ai, bj, size⟩ := blk
      obtain ⟨ha, hb, hc⟩ := hchain
      simp only at ha hb hc
      rw [opcodesAux] at hmem
      rw [List.mem_append, List.mem_append] at hmem
      rcases hmem with (hmem | hmem) | hmem
      · obtain ⟨_, h1, _⟩ := nonEqualOp_mem hmem
        omega
      · by_cases hs : size ≠ 0
        · rw [if_pos hs] at hmem
          simp at hmem
          subst hmem
          simp only
          omega
        · rw [if_neg hs] at hmem; simp at hmem
      · have := ih (ai + size) (bj + size) hc op hmem
        omega

/-- Replaying the edits extracted from the opcodes of a valid block chain
starting at cursors `(i, j)` rebuilds the rest of `b`. -/
theorem replay_rec (a b : List Char) :
    ∀ (blocks : List Block) (i j : Nat),
      ChainTo i j a.length b.length blocks →
      (∀ blk ∈ blocks, SliceEq a b blk) →
      blocks.getLast? = some (a.length, b.length, 0) →
      apply_edits_from a i ((opcodesAux i j blocks).filterMap (editOfOpcode b))
        = .ok (b.drop j) := by
  intro blocks
  induction blocks with
  | nil => intro i j _ _ hlast; simp at hlast
  | cons blk rest ih =>
      intro i j hchain hslice hlast
      obtain ⟨ai, bj, size⟩ := blk
      obtain ⟨ha, hb, hc⟩ := hchain
      simp only at ha hb hc
      have hsliceblk : (a.drop ai).take size = (b.drop bj).take size :=
        hslice (ai, bj, size) (by simp)
      -- the slice of `a` the equal block covers, as a slice of `b`
      have hseq : slice a ai (ai + size) = slice b bj (bj + size) := by
        unfold slice
        have h1 : ai + size - ai = size := by omega
        have h2 : bj + size - bj = size := by omega
        rw [h1, h2, hsliceblk]
      cases rest with
      | nil =>
          -- the only block is the sentinel
          simp only [List.getLast?_singleton, Option.some.injEq] at hlast
          have hai : ai = a.length := by
            have := congrArg (·.1) hlast; simpa using this
          have hbj : bj = b.length := by
            have := congrArg (·.2.1) hlast; simpa using this
          have hsize : size = 0 := by
            have := congrArg (·.2.2) hlast; simpa using this
          subst hai; subst hbj; subst hsize
          rw [opcodesAux, opcodesAux]
          simp only [if_neg (by omega : ¬(0 ≠ 0))]
          rcases nonEqualOp_cases i j a.length b.length ha hb with
            ⟨hia, hjb, hnone⟩ | ⟨t, ht, hsome⟩
          · subst hia; subst hjb
            rw [hnone]
            simp only [List.append_nil, List.nil_append, List.filterMap_nil]
            rw [show apply_edits_from a a.length [] = .ok (a.drop a.length) from rfl]
            simp
          · rw [hsome]
            simp only [List.append_nil, List.nil_append, List.filterMap_cons]
            rw [show editOfOpcode b ⟨t, i, a.length, j, b.length⟩
                = some { start := i, «end» := a.length,
                         replacement := slice b j b.length } by
              unfold editOfOpcode; rw [if_neg (by simpa using ht)]]
            simp only [List.filterMap_nil]
            rw [apply_edits_from, if_neg (by simp)]
            rw [show apply_edits_from a a.length [] = .ok (a.drop a.length) from rfl]
            simp only [List.drop_length]
            have : b.drop j = slice b j b.length ++ b.drop b.length :=
              drop_eq_slice_append b hb
            simp [slice_zero_len, this]
      | cons r rs =>
          have hlast' : (r :: rs).getLast? = some (a.length, b.length, 0) := by
            rwa [List.getLast?_cons_cons] at hlast
          have hih := ih (ai + size) (bj + size) hc
            (fun x hx => hslice x (by simp [hx])) hlast'
          have hble : bj + size ≤ b.length := (ChainTo_le hc).2
          -- every edit from the tail opcodes starts at or after ai + size
          have hstarts : ∀ e erest,
              (opcodesAux (ai + size) (bj + size) (r :: rs)).filterMap (editOfOpcode b)
                = e :: erest → ai + size ≤ e.start := by
            intro e erest heq
            have hmem : e ∈ (opcodesAux (ai + size) (bj + size) (r :: rs)).filterMap
                (editOfOpcode b) := by rw [heq]; simp
            rw [List.mem_filterMap] at hmem
            obtain ⟨op, hop, hof⟩ := hmem
            have hge := opcodesAux_i1_ge (r :: rs) (ai + size) (bj + size) hc op hop
            unfold editOfOpcode at hof
            by_cases htag : op.tag = Tag.equal
            · rw [if_pos htag] at hof; simp at hof
            · rw [if_neg htag] at hof
              simp only [Option.some.injEq] at hof
              have : e.start = op.i1 := by rw [← hof]
              omega
          have hshift : apply_edits_from a (ai + size)
              ((opcodesAux (ai + size) (bj + size) (r :: rs)).filterMap (editOfOpcode b))
                = .ok (b.drop (bj + size)) := hih
          -- replay from cursor ai: copies the equal block, then the tail
          have hmid : apply_edits_from a ai
              ((opcodesAux (ai + size) (bj + size) (r :: rs)).filterMap (editOfOpcode b))
                = .ok (b.drop bj) := by
            rw [apply_edits_from_shift a _ (by omega : ai ≤ ai + size) hstarts, hshift]
            simp only [Except.map]
            rw [hseq]
            congr 1
            exact (drop_eq_slice_append b (by omega)).symm
          rw [opcodesAux]
          rcases nonEqualOp_cases i j ai bj ha hb with
            ⟨hia, hjb, hnone⟩ | ⟨t, ht, hsome⟩
          · rw [hnone, hia, hjb]
            simp only [List.nil_append, List.filterMap_append]
            by_cases hs : size ≠ 0
            · rw [if_pos hs]
              rw [show (List.filterMap (editOfOpcode b)
                  [⟨Tag.equal, ai, ai + size, bj, bj + size⟩]) = [] by
                simp [editOfOpcode]]
              rw [List.nil_append]
              exact hmid
            · rw [if_neg hs]
              simp only [List.filterMap_nil, List.nil_append]
              have hs0 : size = 0 := by omega
              subst hs0
              simpa using hmid
          · rw [hsome]
            simp only [List.filterMap_append, List.filterMap_cons]
            rw [show editOfOpcode b ⟨t, i, ai, j, bj⟩
                = some { start := i, «end» := ai, replacement := slice b j bj } by
              unfold editOfOpcode; rw [if_neg (by simpa using ht)]]
            simp only [List.filterMap_nil]
            have hequal : List.filterMap (editOfOpcode b)
                (if size ≠ 0 then [⟨Tag.equal, ai, ai + size, bj, bj + size⟩] else [])
                  = [] := by
              by_cases hs : size ≠ 0
              · rw [if_pos hs]; simp [editOfOpcode]
              · rw [if_neg hs]; simp
            rw [hequal]
            simp only [List.cons_append, List.nil_append]
            rw [apply_edits_from, if_neg (by simp only; omega)]
            by_cases hs : size ≠ 0
            · rw [show ({ start := i, «end» := ai, replacement := slice b j bj }
                  : Edit).«end» = ai from rfl]
              rw [hmid]
              simp only
              rw [slice_zero_len]
              simp only [List.nil_append]
              congr 1
              rw [← drop_eq_slice_append b hb]
            · have hs0 : size = 0 := by omega
              subst hs0
              rw [show ({ start := i, «end» := ai, replacement := slice b j bj }
                  : Edit).«end» = ai from rfl]
              rw [hmid]
              simp only
              rw [slice_zero_len]
              simp only [List.nil_append]
              congr 1
              rw [← drop_eq_slice_append b hb]

/-- Replaying `build_edits original cleaned` against `original` rebuilds
`cleaned` exactly. -/
theorem apply_build_edits (original cleaned : List Char) :
    apply_edits original (build_edits original cleaned) = .ok cleaned := by
  unfold apply_edits build_edits get_opcodes
  have := replay_rec original cleaned (get_matching_blocks original cleaned) 0 0
    (get_matching_blocks_chain original cleaned)
    (get_matching_blocks_sliceEq original cleaned)
    (get_matching_blocks_getLast original cleaned)
  simpa using this

/-- Well-formedness of an edit list relative to a cursor and the length of
the original: edits are in ascending non-overlapping order with
`cursor ≤ start ≤ end ≤ hi` threading left to right. -/
def editsChained (cursor hi : Nat) : List Edit → Prop
  | [] => True
  | e :: rest => cursor ≤ e.start ∧ e.start ≤ e.«end» ∧ e.«end» ≤ hi ∧
      editsChained e.«end» hi rest

theorem editsChained_weaken {hi : Nat} :
    ∀ {l : List Edit} {c c' : Nat}, c ≤ c' → editsChained c' hi l →
      editsChained c hi l := by
  intro l c c' hcc h
  cases l with
  | nil => trivial
  | cons e rest =>
      obtain ⟨h1, h2, h3, h4⟩ := h
      exact ⟨by omega, h2, h3, h4⟩

theorem opcodes_edits_chained {hj : Nat} (a b : List Char) :
    ∀ (blocks : List Block) (i j : Nat), ChainTo i j a.length hj blocks →
      editsChained i a.length ((opcodesAux i j blocks).filterMap (editOfOpcode b)) := by
  intro blocks
  induction blocks with
  | nil => intro i j _; trivial
  | cons blk rest ih =>
      intro i j hchain
      obtain ⟨ai, bj, size⟩ := blk
      obtain ⟨ha, hb, hc⟩ := hchain
      simp only at ha hb hc
      have hle : ai + size ≤ a.length := (ChainTo_le hc).1
      have hrest := ih (ai + size) (bj + size) hc
      rw [opcodesAux]
      simp only [List.filterMap_append]
      have hequal : List.filterMap (editOfOpcode b)
          (if size ≠ 0 then [⟨Tag.equal, ai, ai + size, bj, bj + size⟩] else [])
            = [] := by
        by_cases hs : size ≠ 0
        · rw [if_pos hs]; simp [editOfOpcode]
        · rw [if_neg hs]; simp
      rw [hequal]
      rcases nonEqualOp_cases i j ai bj ha hb with
        ⟨hia, hjb, hnone⟩ | ⟨t, ht, hsome⟩
      · rw [hnone]
        simp only [List.filterMap_nil, List.nil_append]
        exact editsChained_weaken (by omega) hrest
      · rw [hsome]
        simp only [List.filterMap_cons]
        rw [show editOfOpcode b ⟨t, i, ai, j, bj⟩
            = some { start := i, «end» := ai, replacement := slice b j bj } by
          unfold editOfOpcode; rw [if_neg (by simpa using ht)]]
        simp only [List.filterMap_nil, List.nil_append]
        refine ⟨le_rfl, ?_, ?_, ?_⟩
        · show i ≤ ai; exact ha
        · show ai ≤ a.length; omega
        · show editsChained ai a.length _
          exact editsChained_weaken (by omega) hrest

/-- The edit list built by `build_edits` is chained: ascending,
non-overlapping, inside `[0, length original]`. -/
theorem build_edits_chained (original cleaned : List Char) :
    editsChained 0 original.length (build_edits original cleaned) := by
  unfold build_edits get_opcodes
  exact opcodes_edits_chained original cleaned (get_matching_blocks original cleaned)
    0 0 (get_matching_blocks_chain original cleaned)

/-! ## Spell correction and the cleaning engine

`TextCleaner.clean` (cleaner.py lines 111–154).  The enchant dictionary is
the abstract capability `{check, suggest}` the code consumes.  The word
scan models `WORD_RE = [A-Za-z][A-Za-z']+` with `finditer`: maximal runs,
leftmost first, non-overlapping; non-token text passes through unchanged.
The `md5` fingerprints and the `top_replacements` counter summary of the
result dict are external to the claims and are not modelled (`md5` is an
external hash primitive). -/

/-- The dictionary capability consumed by `TextCleaner` (enchant's
`Dict.check` and `Dict.suggest`). -/
structure Dict where
  check : List Char → Bool
  suggest : List Char → List (List Char)

/-- Model of `CleanerConfig` (cleaner.py lines 89–94). -/
structure CleanerConfig where
  target_charset : String
  spellcheck : Bool
  language : String
  max_suggestion_distance : Nat

/-- ASCII letter, the `[A-Za-z]` class of `WORD_RE`. -/
def isAsciiLetter (c : Char) : Bool :=
  ('A' ≤ c && c ≤ 'Z') || ('a' ≤ c && c ≤ 'z')

/-- The `[A-Za-z']` class of `WORD_RE` (letter or apostrophe). -/
def isWordChar (c : Char) : Bool := isAsciiLetter c || c = Char.ofNat 39

/-- The per-token decision of the spellcheck loop (cleaner.py lines
122–130): keep dictionary words; otherwise take the first suggestion, match
its case to the token, and accept it only when the case-insensitive edit
distance is within the configured maximum. -/
def tokenReplacement (dict : Dict) (cfg : CleanerConfig) (token : List Char) :
    List Char :=
  if dict.check token then token
  else
    match dict.suggest token with
    | [] => token
    | s :: _ =>
        let candidate := match_case token s
        let distance := edit_distance (pyLower token) (pyLower candidate)
        if distance ≤ cfg.max_suggestion_distance then candidate else token

/-- The spellcheck pass over the normalized text (cleaner.py lines
117–137): scan for `WORD_RE` tokens, substitute each token by its
replacement, copy everything else verbatim.  Structural fuel (any value at
least the length of the text) keeps the recursion structural. -/
def spellPassFuel (dict : Dict) (cfg : CleanerConfig) :
    Nat → List Char → List Char
  | 0, _ => []
  | _ + 1, [] => []
  | fuel + 1, c :: rest =>
      if isAsciiLetter c && !(rest.takeWhile isWordChar).isEmpty then
        tokenReplacement dict cfg (c :: rest.takeWhile isWordChar)
          ++ spellPassFuel dict cfg fuel (rest.dropWhile isWordChar)
      else c :: spellPassFuel dict cfg fuel rest

def spellPass (dict : Dict) (cfg : CleanerConfig) (s : List Char) : List Char :=
  spellPassFuel dict cfg s.length s

/-- The per-item cleaning result (cleaner.py lines 144–154); the `md5`
fingerprints and `top_replacements` are outside the model. -/
structure CleaningResult where
  cleaned_text : List Char
  edits : List Edit
  changed : Bool
  edit_count : Nat

/-- Model of `TextCleaner.clean` (cleaner.py lines 111–154): normalize,
optionally spell-correct, then diff the raw text against the cleaned
text. -/
def clean (U : UnicodeModel) (dict : Dict) (cfg : CleanerConfig)
    (raw_text : List Char) : Except CleanError CleaningResult :=
  match normalize_charset U raw_text cfg.target_charset with
  | .error e => .error e
  | .ok normalized =>
      let cleaned := if cfg.spellcheck then spellPass dict cfg normalized
                     else normalized
      let edits := build_edits raw_text cleaned
      .ok { cleaned_text := cleaned
            edits := edits
            changed := decide (raw_text ≠ cleaned)
            edit_count := edits.length }

/-! ## A concrete Unicode fragment model

Executable model of `unicodedata` faithful to the real tables on the
characters it covers: ASCII, the C0/C1 controls, the zero-width format
characters (U+200B–U+200F, category Cf), the soft hyphen (U+00AD, Cf), the
combining acute accent (U+0301, category Mn, composing with `a` into
U+00E1 under NFC/NFKC), and U+00E1 itself (Ll, NFKC-stable).  NFKC
composition requires adjacency, so a format character standing between the
base and the mark blocks it — exactly the real behaviour verified against
CPython's `unicodedata`. -/

def zwnj : Char := Char.ofNat 0x200C

def combiningAcute : Char := Char.ofNat 0x0301

def aAcute : Char := Char.ofNat 0x00E1

/-- NFKC on the fragment: compose `a` followed immediately by U+0301 into
U+00E1; everything else is left unchanged. -/
def nfkcFrag : List Char → List Char
  | [] => []
  | c :: rest =>
      match rest with
      | [] => [c]
      | m :: rest2 =>
          if c = 'a' && m = combiningAcute then aAcute :: nfkcFrag rest2
          else c :: nfkcFrag (m :: rest2)

/-- `unicodedata.category(ch)[0] == "C"` on the fragment: C0 controls,
DEL and the C1 controls, the soft hyphen, and the zero-width format
block containing ZWNJ. -/
def isOtherCategoryFrag (c : Char) : Bool :=
  c.toNat < 0x20 || (0x7F ≤ c.toNat && c.toNat ≤ 0x9F) ||
    c.toNat = 0xAD || (0x200B ≤ c.toNat && c.toNat ≤ 0x200F)

/-- The fragment Unicode model. -/
def UFrag : UnicodeModel :=
  { nfkc := nfkcFrag, isOtherCategory := isOtherCategoryFrag }

theorem nfkcFrag_latin1 : ∀ (s : List Char), (∀ c ∈ s, c.toNat ≤ 255) →
    nfkcFrag s = s := by
  intro s
  induction s with
  | nil => intro _; rfl
  | cons c rest ih =>
      intro h
      cases rest with
      | nil => rfl
      | cons m rest2 =>
          rw [show nfkcFrag (c :: m :: rest2)
              = if c = 'a' && m = combiningAcute then aAcute :: nfkcFrag rest2
                else c :: nfkcFrag (m :: rest2) from rfl]
          have hm : m.toNat ≤ 255 := h m (by simp)
          rw [if_neg (by
            simp only [Bool.and_eq_true, decide_eq_true_eq]
            rintro ⟨-, rfl⟩
            have : combiningAcute.toNat = 769 := rfl
            omega)]
          rw [ih (fun x hx => h x (by simp [hx]))]

/-! ## Normalizer lemmas -/

theorem replaceCRLF_id : ∀ (s : List Char), (∀ c ∈ s, c ≠ '\r') →
    replaceCRLF s = s := by
  intro s
  induction s with
  | nil => intro _; rfl
  | cons c rest ih =>
      intro h
      have hc : c ≠ '\r' := h c (by simp)
      cases rest with
      | nil => rfl
      | cons m rest2 =>
          rw [show replaceCRLF (c :: m :: rest2)
              = if c = '\r' && m = '\n' then '\n' :: replaceCRLF rest2
                else c :: replaceCRLF (m :: rest2) from rfl]
          rw [if_neg (by
            simp only [Bool.and_eq_true, decide_eq_true_eq]
            rintro ⟨hcr, -⟩
            exact hc hcr)]
          rw [ih (fun x hx => h x (by simp [hx]))]

theorem replaceCR_id : ∀ (s : List Char), (∀ c ∈ s, c ≠ '\r') →
    replaceCR s = s := by
  intro s
  induction s with
  | nil => intro _; rfl
  | cons c rest ih =>
      intro h
      have ih' := ih (fun x hx => h x (by simp [hx]))
      unfold replaceCR at ih' ⊢
      simp only [List.map_cons]
      rw [if_neg (h c (by simp)), ih']

/-- The characters surviving `normalize_charset` all pass the filter of
line 48 (and, for the narrow charsets, the codec bound). -/
theorem normalize_charset_mem (U : UnicodeModel) (text : List Char)
    (cs : String) (out : List Char) (h : normalize_charset U text cs = .ok out) :
    ∀ c ∈ out, keepChar U c = true := by
  unfold normalize_charset at h
  by_cases h8 : cs = "utf-8"
  · rw [if_pos h8] at h
    simp only [Except.ok.injEq] at h
    subst h
    intro c hc
    exact (List.mem_filter.mp hc).2
  · rw [if_neg h8] at h
    by_cases hn : cs = "latin-1" || cs = "ascii"
    · rw [if_pos hn] at h
      simp only [Except.ok.injEq] at h
      subst h
      intro c hc
      exact (List.mem_filter.mp (List.mem_filter.mp hc).1).2
    · rw [if_neg hn] at h
      exact absurd h (by simp)

theorem normalize_charset_ascii_mem (U : UnicodeModel) (text out : List Char)
    (h : normalize_charset U text "ascii" = .ok out) :
    ∀ c ∈ out, c.toNat ≤ 127 := by
  unfold normalize_charset at h
  rw [if_neg (by simp), if_pos (by simp)] at h
  simp only [Except.ok.injEq] at h
  subst h
  intro c hc
  have := (List.mem_filter.mp hc).2
  rw [if_neg (by simp)] at this
  simpa using this

/-- With a model that classifies CR as category C (as Unicode does: CR is
`Cc`), no carriage return survives normalization. -/
theorem normalize_charset_no_cr (U : UnicodeModel) (hcr : U.isOtherCategory '\r' = true)
    (text : List Char) (cs : String) (out : List Char)
    (h : normalize_charset U text cs = .ok out) : ∀ c ∈ out, c ≠ '\r' := by
  intro c hc hceq
  have hk := normalize_charset_mem U text cs out h c hc
  subst hceq
  rw [keepChar] at hk
  simp only [hcr] at hk
  rw [show (('\r' : Char) = '\n' || ('\r' : Char) = '\t' || !true) = false from by
    decide] at hk
  exact absurd hk (by simp)

theorem filter_eq_self_of_mem {p : Char → Bool} :
    ∀ {l : List Char}, (∀ c ∈ l, p c = true) → l.filter p = l := by
  intro l
  induction l with
  | nil => intro _; rfl
  | cons c rest ih =>
      intro h
      rw [List.filter_cons, if_pos (h c (by simp)), ih (fun x hx => h x (by simp [hx]))]

theorem count_filter_of_pred {p : Char → Bool} (ch : Char) (hp : p ch = true) :
    ∀ (l : List Char), (l.filter p).count ch = l.count ch := by
  intro l
  induction l with
  | nil => rfl
  | cons c rest ih =>
      rw [List.filter_cons]
      by_cases hc : p c = true
      · rw [if_pos hc, List.count_cons, List.count_cons, ih]
      · rw [if_neg hc, ih, List.count_cons]
        have : ¬c = ch := by
          intro hcc
          subst hcc
          exact hc hp
        simp [this]

theorem normalize_charset_latin1_mem (U : UnicodeModel) (text out : List Char)
    (h : normalize_charset U text "latin-1" = .ok out) :
    ∀ c ∈ out, c.toNat ≤ 255 := by
  unfold normalize_charset at h
  rw [if_neg (by simp), if_pos (by simp)] at h
  simp only [Except.ok.injEq] at h
  subst h
  intro c hc
  have := (List.mem_filter.mp hc).2
  simpa using this

/-- Every character of the normalizer output occurs in the NFKC output of
the line-ending-unified text: the filter and narrowing steps only drop
characters. -/
theorem normalize_charset_mem_nfkc (U : UnicodeModel) (text : List Char)
    (cs : String) (out : List Char) (h : normalize_charset U text cs = .ok out) :
    ∀ c ∈ out, c ∈ U.nfkc (replaceCR (replaceCRLF text)) := by
  unfold normalize_charset at h
  by_cases h8 : cs = "utf-8"
  · rw [if_pos h8] at h
    simp only [Except.ok.injEq] at h
    subst h
    intro c hc
    exact List.mem_of_mem_filter hc
  · rw [if_neg h8] at h
    by_cases hn : cs = "latin-1" || cs = "ascii"
    · rw [if_pos hn] at h
      simp only [Except.ok.injEq] at h
      subst h
      intro c hc
      exact List.mem_of_mem_filter (List.mem_of_mem_filter hc)
    · rw [if_neg hn] at h
      exact absurd h (by simp)

/-- Normalizing an already-normalized latin-1 or ascii output is the
identity: every component of the pipeline fixes it.  The two NFKC
hypotheses are true of the real NFKC: a string of code points at most
0xFF that are individually NFKC-fixed contains no combining mark, no
decomposable character and no composing pair (all of those live at or
above U+0300), hence is normalized; and a character can occur in NFKC
output only if it has no decomposition, so its singleton is
normalized. -/
theorem normalize_narrow_idem (U : UnicodeModel)
    (hfix : ∀ s : List Char, (∀ c ∈ s, c.toNat ≤ 255 ∧ U.nfkc [c] = [c]) →
      U.nfkc s = s)
    (hemit : ∀ t : List Char, ∀ c ∈ U.nfkc t, U.nfkc [c] = [c])
    (hcr : U.isOtherCategory '\r' = true) (cs : String)
    (hcs : cs = "latin-1" ∨ cs = "ascii") (text out : List Char)
    (h : normalize_charset U text cs = .ok out) :
    normalize_charset U out cs = .ok out := by
  have hmem := normalize_charset_mem U text cs out h
  have hnfkc := normalize_charset_mem_nfkc U text cs out h
  have hnocr := normalize_charset_no_cr U hcr text cs out h
  have hbound : ∀ c ∈ out, c.toNat ≤ 255 := by
    rcases hcs with rfl | rfl
    · exact normalize_charset_latin1_mem U text out h
    · intro c hc
      have := normalize_charset_ascii_mem U text out h c hc
      omega
  have hid : U.nfkc out = out :=
    hfix out (fun c hc => ⟨hbound c hc, hemit _ c (hnfkc c hc)⟩)
  rcases hcs with rfl | rfl
  · unfold normalize_charset
    rw [if_neg (by simp), if_pos (by simp)]
    rw [replaceCRLF_id out hnocr, replaceCR_id out hnocr, hid]
    rw [filter_eq_self_of_mem hmem]
    rw [if_pos (show ("latin-1" : String) = "latin-1" from rfl)]
    rw [filter_eq_self_of_mem (fun c hc => by simpa using hbound c hc)]
  · unfold normalize_charset
    rw [if_neg (by simp), if_pos (by simp)]
    rw [replaceCRLF_id out hnocr, replaceCR_id out hnocr, hid]
    rw [filter_eq_self_of_mem hmem]
    rw [if_neg (show ¬("ascii" : String) = "latin-1" from by simp)]
    rw [filter_eq_self_of_mem (fun c hc => by
      have := normalize_charset_ascii_mem U text out h c hc
      simpa using this)]

/-! ## Concrete fixtures for witnesses -/

/-- A dictionary that accepts everything (spellcheck becomes a no-op). -/
def dictTrivial : Dict := { check := fun _ => true, suggest := fun _ => [] }

/-- A dictionary that flags exactly the token `aple` and suggests
`apples` (two edits away) for everything. -/
def dictAple : Dict :=
  { check := fun t => decide (t ≠ "aple".toList)
    suggest := fun _ => ["apples".toList] }

def cfgPlain : CleanerConfig :=
  { target_charset := "utf-8", spellcheck := false, language := "en_US",
    max_suggestion_distance := 2 }

def cfgMax1 : CleanerConfig :=
  { target_charset := "utf-8", spellcheck := true, language := "en_US",
    max_suggestion_distance := 1 }

def cfgMax2 : CleanerConfig :=
  { target_charset := "utf-8", spellcheck := true, language := "en_US",
    max_suggestion_distance := 2 }

/-! ## Claims -/

/-- C1: replay round-trip.  For every pair `(original, cleaned)`,
`apply_edits(original, build_edits(original, cleaned)) == cleaned`; in
particular, for every raw text and config, replaying the edit list produced
by `clean` (both as stored in the result and as recomputed by `build_edits`)
against the raw text regenerates the cleaned text exactly. -/
theorem claim_C1_replay_roundtrip :
    (∀ original cleaned : List Char,
      apply_edits original (build_edits original cleaned) = .ok cleaned) ∧
    (∀ (U : UnicodeModel) (dict : Dict) (cfg : CleanerConfig) (t : List Char)
        (r : CleaningResult), clean U dict cfg t = .ok r →
      apply_edits t (build_edits t r.cleaned_text) = .ok r.cleaned_text ∧
      apply_edits t r.edits = .ok r.cleaned_text) := by
  refine ⟨apply_build_edits, ?_⟩
  intro U dict cfg t r h
  have hedits : r.edits = build_edits t r.cleaned_text := by
    unfold clean at h
    cases hn : normalize_charset U t cfg.target_charset with
    | error e => rw [hn] at h; exact absurd h (by simp)
    | ok normalized =>
        rw [hn] at h
        simp only [Except.ok.injEq] at h
        subst h
        rfl
  exact ⟨apply_build_edits t r.cleaned_text,
    hedits ▸ apply_build_edits t r.cleaned_text⟩

set_option maxRecDepth 40000 in
theorem claim_C1_replay_roundtrip_witness :
    ∃ r, clean UFrag dictTrivial cfgPlain "ab".toList = .ok r ∧
      apply_edits "ab".toList r.edits = .ok r.cleaned_text :=
  ⟨_, rfl, (claim_C1_replay_roundtrip.2 UFrag dictTrivial cfgPlain
    "ab".toList _ rfl).2⟩

/-- C2: overlap rejection.  `apply_edits` fails with the overlap error
exactly when some edit's `start` is below the running cursor; ordered edits
are applied by copying the untouched spans verbatim, substituting each
replacement for `[start, end)`, and appending the tail of the original.
The canonical overlapping pair `[{0,5,"x"}, {3,8,"y"}]` fails for every
original. -/
theorem claim_C2_overlap_rejection :
    (∀ (original : List Char) (edits : List Edit),
      editsOrdered 0 edits = false → apply_edits original edits = .error .overlap) ∧
    (∀ (original : List Char) (edits : List Edit),
      editsOrdered 0 edits = true →
        apply_edits original edits = .ok (replaySpec original 0 edits)) ∧
    (∀ original : List Char,
      apply_edits original [{ start := 0, «end» := 5, replacement := "x".toList },
        { start := 3, «end» := 8, replacement := "y".toList }] = .error .overlap) := by
  refine ⟨fun o e h => apply_edits_from_error o e 0 h,
    fun o e h => apply_edits_from_ok o e 0 h, fun o => ?_⟩
  exact apply_edits_from_error o _ 0 (by decide)

theorem claim_C2_overlap_rejection_witness :
    editsOrdered 0 [({ start := 0, «end» := 5, replacement := "x".toList } : Edit),
        { start := 3, «end» := 8, replacement := "y".toList }] = false ∧
    apply_edits "abcdefgh".toList
      [{ start := 0, «end» := 5, replacement := "x".toList },
       { start := 3, «end» := 8, replacement := "y".toList }] = .error .overlap ∧
    editsOrdered 0 [({ start := 1, «end» := 3, replacement := "Z".toList } : Edit)]
        = true ∧
    apply_edits "abcd".toList [{ start := 1, «end» := 3, replacement := "Z".toList }]
        = .ok (replaySpec "abcd".toList 0
            [{ start := 1, «end» := 3, replacement := "Z".toList }]) :=
  ⟨by decide, claim_C2_overlap_rejection.2.2 "abcdefgh".toList, by decide,
    claim_C2_overlap_rejection.2.1 "abcd".toList _ (by decide)⟩

/-- C3 (counterexample): normalization is not idempotent as claimed.  With
the utf-8 target and `t = a, U+200C (ZWNJ), U+0301 (combining acute)`, the
first pass strips the ZWNJ (category Cf) leaving `a, U+0301`, which NFKC
left alone only because the ZWNJ blocked composition; a second pass
composes the now-adjacent pair into `á` — the outputs differ. -/
theorem claim_C3_idempotence_counterexample :
    normalize_charset UFrag ['a', zwnj, combiningAcute] "utf-8"
        = .ok ['a', combiningAcute] ∧
    normalize_charset UFrag ['a', combiningAcute] "utf-8" = .ok [aAcute] ∧
    (['a', combiningAcute] : List Char) ≠ [aAcute] :=
  ⟨rfl, rfl, by decide⟩

/-- C3 (amended): normalization is idempotent for the `latin-1` and
`ascii` targets — for any NFKC under which a string of code points at
most 0xFF that are individually NFKC-fixed is itself fixed and every
emitted character is NFKC-fixed as a singleton (both true of the real
NFKC: no combining mark, decomposable character or composing pair lies
below U+0300, and a character with a decomposition never occurs in NFKC
output), and any category model classifying CR in group C (as Unicode
does).  For `utf-8` idempotence fails in general, because stripping a
category-C format character can expose a newly composable
base + combining-mark pair. -/
theorem claim_C3_idempotence_amended :
    ∀ (U : UnicodeModel),
      (∀ s : List Char, (∀ c ∈ s, c.toNat ≤ 255 ∧ U.nfkc [c] = [c]) →
        U.nfkc s = s) →
      (∀ t : List Char, ∀ c ∈ U.nfkc t, U.nfkc [c] = [c]) →
      U.isOtherCategory '\r' = true →
      ∀ cs : String, cs = "latin-1" ∨ cs = "ascii" →
        ∀ t out : List Char, normalize_charset U t cs = .ok out →
          normalize_charset U out cs = .ok out :=
  fun U h1 h2 h3 cs hcs t out h => normalize_narrow_idem U h1 h2 h3 cs hcs t out h

theorem claim_C3_idempotence_amended_witness :
    normalize_charset UFrag "ab".toList "latin-1" = .ok "ab".toList ∧
    normalize_charset UFrag "ab".toList "ascii" = .ok "ab".toList :=
  ⟨claim_C3_idempotence_amended UFrag
      (fun s hs => nfkcFrag_latin1 s (fun c hc => (hs c hc).1))
      (fun _ c _ => rfl) (by decide) "latin-1" (Or.inl rfl)
      "ab".toList "ab".toList rfl,
    claim_C3_idempotence_amended UFrag
      (fun s hs => nfkcFrag_latin1 s (fun c hc => (hs c hc).1))
      (fun _ c _ => rfl) (by decide) "ascii" (Or.inr rfl)
      "ab".toList "ab".toList rfl⟩

/-- C4: every charset outside the three recognized options is rejected
with the unsupported-charset error, and each of the three recognized ones
succeeds. -/
theorem claim_C4_unsupported_charset :
    (∀ (U : UnicodeModel) (t : List Char) (cs : String),
      cs ≠ "utf-8" → cs ≠ "latin-1" → cs ≠ "ascii" →
      normalize_charset U t cs = .error .unsupportedCharset) ∧
    (∀ (U : UnicodeModel) (t : List Char),
      (normalize_charset U t "utf-8").isOk = true ∧
      (normalize_charset U t "latin-1").isOk = true ∧
      (normalize_charset U t "ascii").isOk = true) := by
  constructor
  · intro U t cs h1 h2 h3
    unfold normalize_charset
    rw [if_neg h1, if_neg (by simp [h2, h3])]
  · intro U t
    refine ⟨?_, ?_, ?_⟩
    · unfold normalize_charset
      rw [if_pos rfl]
      rfl
    · unfold normalize_charset
      rw [if_neg (by simp), if_pos (by simp)]
      rfl
    · unfold normalize_charset
      rw [if_neg (by simp), if_pos (by simp)]
      rfl

theorem claim_C4_unsupported_charset_witness :
    normalize_charset UFrag "abc".toList "utf-16" = .error .unsupportedCharset :=
  claim_C4_unsupported_charset.1 UFrag "abc".toList "utf-16"
    (by decide) (by decide) (by decide)

/-- C5: the edit list produced by `build_edits` is already well formed —
offsets satisfy `0 ≤ start ≤ end ≤ length original` and each successive
edit starts at or after the previous edit's end — with exactly one `Edit`
per non-`equal` opcode (adjacent non-equal opcodes are not merged), each
carrying the corresponding slice of `cleaned` as its replacement. -/
theorem claim_C5_diff_output_invariant :
    (∀ original cleaned : List Char,
      editsChained 0 original.length (build_edits original cleaned)) ∧
    (∀ original cleaned : List Char,
      build_edits original cleaned
        = (get_opcodes original cleaned).filterMap (editOfOpcode cleaned)) ∧
    (∀ original cleaned : List Char, ∀ e ∈ build_edits original cleaned,
      ∃ op ∈ get_opcodes original cleaned, ¬op.tag = Tag.equal ∧
        e.start = op.i1 ∧ e.«end» = op.i2 ∧
        e.replacement = slice cleaned op.j1 op.j2) := by
  refine ⟨build_edits_chained, fun _ _ => rfl, ?_⟩
  intro original cleaned e he
  unfold build_edits at he
  rw [List.mem_filterMap] at he
  obtain ⟨op, hop, hof⟩ := he
  unfold editOfOpcode at hof
  by_cases htag : op.tag = Tag.equal
  · rw [if_pos htag] at hof; exact absurd hof (by simp)
  · rw [if_neg htag] at hof
    simp only [Option.some.injEq] at hof
    exact ⟨op, hop, htag, by rw [← hof], by rw [← hof], by rw [← hof]⟩

set_option maxRecDepth 40000 in
theorem claim_C5_diff_output_invariant_witness :
    ∃ op ∈ get_opcodes "abXcd".toList "abYYcd".toList, ¬op.tag = Tag.equal ∧
      ({ start := 2, «end» := 3, replacement := "YY".toList } : Edit).start = op.i1 ∧
      ({ start := 2, «end» := 3, replacement := "YY".toList } : Edit).«end» = op.i2 ∧
      ({ start := 2, «end» := 3, replacement := "YY".toList } : Edit).replacement
        = slice "abYYcd".toList op.j1 op.j2 :=
  claim_C5_diff_output_invariant.2.2 "abXcd".toList "abYYcd".toList
    { start := 2, «end» := 3, replacement := "YY".toList } (by decide)

/-- C6: for every recognized charset (given a category model that
classifies CR in group C, as Unicode does), normalization is the pipeline
"unify line endings, then NFKC, then strip category-C characters except
`\n`/`\t`, then narrow", its output contains no carriage return and no
category-C character other than `\n` and `\t`, and the stripping and
narrowing steps never remove a `\n` or `\t` produced by NFKC. -/
theorem claim_C6_normalizer_postcondition :
    ∀ (U : UnicodeModel) (t : List Char) (cs : String),
      U.isOtherCategory '\r' = true →
      cs = "utf-8" ∨ cs = "latin-1" ∨ cs = "ascii" →
      ∃ out, normalize_charset U t cs = .ok out ∧
        (∀ c ∈ out, c ≠ '\r') ∧
        (∀ c ∈ out, U.isOtherCategory c = true → c = '\n' ∨ c = '\t') ∧
        (∀ ch : Char, ch = '\n' ∨ ch = '\t' →
          out.count ch = (U.nfkc (replaceCR (replaceCRLF t))).count ch) := by
  intro U t cs hcr hcs
  have hok : ∃ out, normalize_charset U t cs = .ok out := by
    unfold normalize_charset
    rcases hcs with rfl | rfl | rfl
    · rw [if_pos rfl]; exact ⟨_, rfl⟩
    · rw [if_neg (by simp), if_pos (by simp)]; exact ⟨_, rfl⟩
    · rw [if_neg (by simp), if_pos (by simp)]; exact ⟨_, rfl⟩
  obtain ⟨out, hout⟩ := hok
  refine ⟨out, hout, normalize_charset_no_cr U hcr t cs out hout, ?_, ?_⟩
  · intro c hc hcat
    have hk := normalize_charset_mem U t cs out hout c hc
    rw [keepChar, hcat] at hk
    simp only [Bool.not_true, Bool.or_false] at hk
    rcases Bool.or_eq_true_iff.mp hk with h | h
    · left; exact of_decide_eq_true h
    · right; exact of_decide_eq_true h
  · intro ch hch
    have hkeep : keepChar U ch = true := by
      rcases hch with rfl | rfl <;> simp [keepChar]
    unfold normalize_charset at hout
    rcases hcs with rfl | rfl | rfl
    · rw [if_pos rfl] at hout
      simp only [Except.ok.injEq] at hout
      subst hout
      exact count_filter_of_pred ch hkeep _
    · rw [if_neg (by simp), if_pos (by simp)] at hout
      simp only [Except.ok.injEq] at hout
      subst hout
      rw [count_filter_of_pred ch (by rcases hch with rfl | rfl <;> decide)]
      exact count_filter_of_pred ch hkeep _
    · rw [if_neg (by simp), if_pos (by simp)] at hout
      simp only [Except.ok.injEq] at hout
      subst hout
      rw [count_filter_of_pred ch (by rcases hch with rfl | rfl <;> decide)]
      exact count_filter_of_pred ch hkeep _

theorem claim_C6_normalizer_postcondition_witness :
    ∃ out, normalize_charset UFrag "a\r\nb\x01".toList "utf-8" = .ok out ∧
      (∀ c ∈ out, c ≠ '\r') ∧
      (∀ c ∈ out, UFrag.isOtherCategory c = true → c = '\n' ∨ c = '\t') ∧
      (∀ ch : Char, ch = '\n' ∨ ch = '\t' →
        out.count ch
          = (UFrag.nfkc (replaceCR (replaceCRLF "a\r\nb\x01".toList))).count ch) :=
  claim_C6_normalizer_postcondition UFrag "a\r\nb\x01".toList "utf-8"
    (by decide) (Or.inl rfl)

/-- C7: case-pattern transfer.  The cased candidate is the suggestion
upper-cased when the source token is all-uppercase, title-cased when the
token is title-case, lower-cased when the token is all-lowercase, and
unchanged otherwise — with the precedence the source gives those tests —
and the three canonical examples hold. -/
theorem claim_C7_case_transfer :
    (∀ source suggestion : List Char, pyIsUpper source = true →
      match_case source suggestion = pyUpper suggestion) ∧
    (∀ source suggestion : List Char, pyIsUpper source = false →
      pyIsTitle source = true →
      match_case source suggestion = pyCapitalize suggestion) ∧
    (∀ source suggestion : List Char, pyIsUpper source = false →
      pyIsTitle source = false → pyIsLower source = true →
      match_case source suggestion = pyLower suggestion) ∧
    (∀ source suggestion : List Char, pyIsUpper source = false →
      pyIsTitle source = false → pyIsLower source = false →
      match_case source suggestion = suggestion) ∧
    match_case "TEH".toList "the".toList = "THE".toList ∧
    match_case "Teh".toList "the".toList = "The".toList ∧
    match_case "teh".toList "the".toList = "the".toList := by
  refine ⟨?_, ?_, ?_, ?_, by decide, by decide, by decide⟩
  · intro s c h
    unfold match_case
    rw [if_pos h]
  · intro s c h1 h2
    unfold match_case
    rw [if_neg (by simp [h1]), if_pos h2]
  · intro s c h1 h2 h3
    unfold match_case
    rw [if_neg (by simp [h1]), if_neg (by simp [h2]), if_pos h3]
  · intro s c h1 h2 h3
    unfold match_case
    rw [if_neg (by simp [h1]), if_neg (by simp [h2]), if_neg (by simp [h3])]

theorem claim_C7_case_transfer_witness :
    match_case "TEH".toList "xy".toList = pyUpper "xy".toList :=
  claim_C7_case_transfer.1 "TEH".toList "xy".toList (by decide)

set_option maxRecDepth 40000 in
/-- C8: the distance gate.  A misspelled token with a non-empty suggestion
list is replaced by the cased top candidate exactly when the
case-insensitive edit distance between token and candidate is within the
configured maximum, and kept unchanged otherwise; concretely, the
suggestion `apples` for token `aple` (2 edits away) is rejected at
max-distance 1 and accepted at max-distance 2. -/
theorem claim_C8_distance_gate :
    (∀ (dict : Dict) (cfg : CleanerConfig) (token s : List Char)
        (rest : List (List Char)),
      dict.check token = false → dict.suggest token = s :: rest →
      (edit_distance (pyLower token) (pyLower (match_case token s))
          ≤ cfg.max_suggestion_distance →
        tokenReplacement dict cfg token = match_case token s) ∧
      (cfg.max_suggestion_distance
          < edit_distance (pyLower token) (pyLower (match_case token s)) →
        tokenReplacement dict cfg token = token)) ∧
    (clean UFrag dictAple cfgMax1 "aple".toList).map (fun r => r.cleaned_text)
        = .ok "aple".toList ∧
    (clean UFrag dictAple cfgMax2 "aple".toList).map (fun r => r.cleaned_text)
        = .ok "apples".toList ∧
    edit_distance "aple".toList "apples".toList = 2 := by
  refine ⟨?_, by rfl, by rfl, by rfl⟩
  intro dict cfg token s rest h1 h2
  have hstep : tokenReplacement dict cfg token
      = if edit_distance (pyLower token) (pyLower (match_case token s))
            ≤ cfg.max_suggestion_distance then match_case token s else token := by
    unfold tokenReplacement
    rw [if_neg (by simp [h1]), h2]
  rw [hstep]
  constructor
  · intro hle; rw [if_pos hle]
  · intro hgt; rw [if_neg (by omega)]

theorem claim_C8_distance_gate_witness :
    tokenReplacement dictAple cfgMax1 "aple".toList = "aple".toList :=
  (claim_C8_distance_gate.1 dictAple cfgMax1 "aple".toList "apples".toList []
    (by decide) rfl).2 (by decide)

/-- C9: `_edit_distance` computes the classic unit-cost Levenshtein
distance and is a metric: symmetric, zero exactly on equal strings, and
satisfying the triangle inequality. -/
theorem claim_C9_edit_distance_metric :
    (∀ a b : List Char, edit_distance a b = lev a b) ∧
    (∀ a b : List Char, edit_distance a b = edit_distance b a) ∧
    (∀ a b : List Char, edit_distance a b = 0 ↔ a = b) ∧
    (∀ a b c : List Char,
      edit_distance a c ≤ edit_distance a b + edit_distance b c) := by
  refine ⟨edit_distance_eq_lev, ?_, ?_, ?_⟩
  · intro a b
    rw [edit_distance_eq_lev, edit_distance_eq_lev, lev_symm]
  · intro a b
    rw [edit_distance_eq_lev]
    exact lev_zero_iff a b
  · intro a b c
    rw [edit_distance_eq_lev, edit_distance_eq_lev, edit_distance_eq_lev]
    exact lev_triangle a b c

/-- C10: `apply_edits` validates only the cursor condition.  Whenever every
edit's `start` is at or past the running cursor it succeeds — even when an
edit's `end` exceeds the length of the original (the span is silently
clamped) or when `end < start` (in which case the characters of
`original[end:start)` appear twice in the output). -/
theorem claim_C10_no_span_validation :
    (∀ (original : List Char) (edits : List Edit), editsOrdered 0 edits = true →
      (apply_edits original edits).isOk = true) ∧
    apply_edits "abc".toList
        [{ start := 1, «end» := 99, replacement := "X".toList }]
      = .ok "aX".toList ∧
    apply_edits "abcdef".toList
        [{ start := 2, «end» := 0, replacement := "X".toList }]
      = .ok ("ab".toList ++ "X".toList ++ "abcdef".toList) := by
  refine ⟨?_, by rfl, by rfl⟩
  intro o e h
  rw [apply_edits, apply_edits_from_ok o e 0 h]
  rfl

theorem claim_C10_no_span_validation_witness :
    (apply_edits "abc".toList
      [({ start := 1, «end» := 99, replacement := "X".toList } : Edit)]).isOk
        = true :=
  claim_C10_no_span_validation.1 "abc".toList _ (by decide)

end TextCleaner
